import Mathlib

/-!
Verification of the XXH64 implementation in `xxhash.go`.

The embedding works over `List Nat` byte sequences; unsigned 64-bit machine
arithmetic is rendered as `Nat` arithmetic reduced modulo `2 ^ 64`, and each
byte read reduces the stored value modulo `256` (a Go `byte` is a `uint8`).
The `Digest` value mirrors the Go struct; the carry buffer `mem` is modelled
by its valid prefix (the Go code never reads `mem` past index `n` before
overwriting it, which the bounds-checked model below makes explicit).

Functions of the repository that are referenced by `xxhash.go` but live in
files not present here (`writeBlocks`, the one-shot `sum64`, the `rolN`
rotations) are modelled from the spec and marked as such.
-/

namespace XXHash

/-- Modulus of unsigned 64-bit machine arithmetic. -/
def M : Nat := 2 ^ 64

/-- First xxHash prime constant (`prime1` in `xxhash.go`). -/
def prime1 : Nat := 11400714785074694791

/-- Second xxHash prime constant (`prime2` in `xxhash.go`). -/
def prime2 : Nat := 14029467366897019727

/-- Third xxHash prime constant (`prime3` in `xxhash.go`). -/
def prime3 : Nat := 1609587929392839161

/-- Fourth xxHash prime constant (`prime4` in `xxhash.go`). -/
def prime4 : Nat := 9650029242287828579

/-- Fifth xxHash prime constant (`prime5` in `xxhash.go`). -/
def prime5 : Nat := 2870177450012600261

/-- Unsigned 64-bit addition with wraparound. -/
def add64 (a b : Nat) : Nat := (a + b) % M

/-- Unsigned 64-bit multiplication with wraparound. -/
def mul64 (a b : Nat) : Nat := (a * b) % M

/-- Unsigned 64-bit negation with wraparound (Go `-x` on a `uint64`). -/
def neg64 (x : Nat) : Nat := (M - x % M) % M

/-- Modelled from the spec: the `rolN` helpers of the repository are not under
`src/`; the spec describes them as 64-bit rotate-left.  For `x < 2 ^ 64` this
is the standard left rotation by `k` bits, written arithmetically: the low
`64 - k` bits move up by `k` positions and the high `k` bits wrap to the
bottom. -/
def rotl (k x : Nat) : Nat := x % 2 ^ (64 - k) * 2 ^ k + x / 2 ^ (64 - k)

/-- Little-endian value of a byte list (each entry taken modulo 256).
Evaluating it on the 8- and 4-byte reads below renders Go's
`binary.LittleEndian.Uint64` and `binary.LittleEndian.Uint32`. -/
def leWord : List Nat → Nat
  | [] => 0
  | b :: bs => b % 256 + 256 * leWord bs

/-- Go helper `u64(b)`: little-endian 64-bit word from the first 8 bytes. -/
def u64 (b : List Nat) : Nat := leWord (b.take 8)

/-- Go helper `u32(b)`: little-endian 32-bit word from the first 4 bytes. -/
def u32 (b : List Nat) : Nat := leWord (b.take 4)

/-- The primitive mixing function `round` of `xxhash.go`:
`acc += input * prime2; acc = rol31(acc); acc *= prime1`. -/
def round (acc input : Nat) : Nat :=
  mul64 (rotl 31 (add64 acc (mul64 input prime2))) prime1

/-- The lane-merging function `mergeRound` of `xxhash.go`:
`val = round(0, val); acc ^= val; acc = acc*prime1 + prime4`. -/
def mergeRound (acc val : Nat) : Nat :=
  add64 (mul64 (acc ^^^ round 0 val) prime1) prime4

/-- The four 64-bit accumulator lanes. -/
structure Lanes where
  v1 : Nat
  v2 : Nat
  v3 : Nat
  v4 : Nat
deriving DecidableEq, Repr

/-- One 32-byte block step: apply `round` to each lane with the four
little-endian words of the block, in the fixed order
`v1 ← w0, v2 ← w1, v3 ← w2, v4 ← w3`. -/
def roundBlock (l : Lanes) (m : List Nat) : Lanes :=
  ⟨round l.v1 (u64 m), round l.v2 (u64 (m.drop 8)),
   round l.v3 (u64 (m.drop 16)), round l.v4 (u64 (m.drop 24))⟩

/-- Fuelled block-processing loop; `processBlocks` instantiates the fuel with
the input length, which the fuel lemmas below show is always sufficient. -/
def processBlocksF : Nat → Lanes → List Nat → Lanes × List Nat
  | 0, l, b => (l, b)
  | fuel + 1, l, b =>
    if 32 ≤ b.length then processBlocksF fuel (roundBlock l b) (b.drop 32)
    else (l, b)

/-- Modelled from the spec: block processing (spec, section "Block
Processing"); the repository function `writeBlocks` is not under `src/`.
Consumes every full 32-byte block of `b`, updating the lanes with
`roundBlock`, and returns the final lanes together with the unconsumed tail
(of length under 32). -/
def processBlocks (l : Lanes) (b : List Nat) : Lanes × List Nat :=
  processBlocksF b.length l b

/-- The streaming digest state of `xxhash.go` (`type Digest struct`).  The Go
field `n` together with the valid prefix `mem[0:n]` of the 32-byte array is
modelled by the list `mem`, so `n = mem.length`; `total` holds the stored
value of the Go `int` field, kept in `[0, 2 ^ 64)`. -/
structure Digest where
  v1 : Nat
  v2 : Nat
  v3 : Nat
  v4 : Nat
  total : Nat
  mem : List Nat
deriving DecidableEq, Repr

/-- The initial lane values (`Reset`): `v1 = prime1 + prime2`, `v2 = prime2`,
`v3 = 0`, `v4 = -prime1`, all in wrapping unsigned 64-bit arithmetic. -/
def initLanes : Lanes := ⟨add64 prime1 prime2, prime2, 0, neg64 prime1⟩

/-- Go method `Digest.Reset`: clears the carry buffer and total and re-seeds
the four lanes.  Every semantic component of the state is overwritten, so the
result does not depend on the prior state. -/
def Digest.Reset (_d : Digest) : Digest :=
  ⟨add64 prime1 prime2, prime2, 0, neg64 prime1, 0, []⟩

/-- Go function `New`: a zero `Digest` followed by `Reset`. -/
def New : Digest := Digest.Reset ⟨0, 0, 0, 0, 0, []⟩

/-- Modelled from the spec: the repository function `writeBlocks` (not under
`src/`) runs block processing on the digest's lanes and returns the number of
bytes consumed, a multiple of 32 covering every full block of `b`. -/
def writeBlocks (d : Digest) (b : List Nat) : Digest × Nat :=
  let r := processBlocks ⟨d.v1, d.v2, d.v3, d.v4⟩ b
  ({ d with v1 := r.1.v1, v2 := r.1.v2, v3 := r.1.v3, v4 := r.1.v4 },
   b.length - r.2.length)

/-- Go method `Digest.Write`.  Returns the new state together with the pair
`(n, err)` returned by the Go method: `n = len(b)` and `err = nil` (rendered
as `none`).  The three stages follow the source: append into the carry buffer
when everything still fits; otherwise top off and drain a partial carry
block, then process the remaining full blocks, then store the tail. -/
def Digest.Write (d : Digest) (b : List Nat) : Digest × Nat × Option Unit :=
  let n := b.length
  let d0 : Digest := { d with total := (d.total + b.length) % M }
  if d0.mem.length + b.length < 32 then
    ({ d0 with mem := d0.mem ++ b }, n, none)
  else
    let p1 : Digest × List Nat :=
      if 0 < d0.mem.length then
        let m := d0.mem ++ b.take (32 - d0.mem.length)
        ({ d0 with
            v1 := round d0.v1 (u64 m),
            v2 := round d0.v2 (u64 (m.drop 8)),
            v3 := round d0.v3 (u64 (m.drop 16)),
            v4 := round d0.v4 (u64 (m.drop 24)),
            mem := [] },
         b.drop (32 - d0.mem.length))
      else (d0, b)
    let p2 : Digest × List Nat :=
      if 32 ≤ p1.2.length then
        let r := writeBlocks p1.1 p1.2
        (r.1, p1.2.drop r.2)
      else p1
    ({ p2.1 with mem := p2.2 }, n, none)

/-- Fuelled version of the first finalization tier (8-byte words). -/
def tail8F : Nat → Nat → List Nat → Nat × List Nat
  | 0, h, b => (h, b)
  | fuel + 1, h, b =>
    if 8 ≤ b.length then
      tail8F fuel (add64 (mul64 (rotl 27 (h ^^^ round 0 (u64 b))) prime1) prime4)
        (b.drop 8)
    else (h, b)

/-- First finalization tier of `Sum64`: while at least 8 bytes remain,
`h ^= round(0, word64); h = rol27(h)*prime1 + prime4`. -/
def tail8 (h : Nat) (b : List Nat) : Nat × List Nat := tail8F b.length h b

/-- Second finalization tier of `Sum64`: if at least 4 bytes remain,
`h ^= uint64(word32) * prime1; h = rol23(h)*prime2 + prime3`. -/
def tail4 (h : Nat) (b : List Nat) : Nat × List Nat :=
  if 4 ≤ b.length then
    (add64 (mul64 (rotl 23 (h ^^^ mul64 (u32 b) prime1)) prime2) prime3,
     b.drop 4)
  else (h, b)

/-- Third finalization tier of `Sum64`: for each remaining byte,
`h ^= uint64(byte) * prime5; h = rol11(h) * prime1`. -/
def tail1 (h : Nat) : List Nat → Nat
  | [] => h
  | c :: cs => tail1 (mul64 (rotl 11 (h ^^^ mul64 (c % 256) prime5)) prime1) cs

/-- The final avalanche of `Sum64`:
`h ^= h>>33; h *= prime2; h ^= h>>29; h *= prime3; h ^= h>>32`. -/
def avalanche (h : Nat) : Nat :=
  let h1 := mul64 (h ^^^ h / 2 ^ 33) prime2
  let h2 := mul64 (h1 ^^^ h1 / 2 ^ 29) prime3
  h2 ^^^ h2 / 2 ^ 32

/-- The three finalization tiers over the carry bytes followed by the
avalanche, exactly as the tail of `Digest.Sum64` runs them. -/
def finishTail (h : Nat) (b : List Nat) : Nat :=
  let r8 := tail8 h b
  let r4 := tail4 r8.1 r8.2
  avalanche (tail1 r4.1 r4.2)

/-- The lane-merge seed of `Sum64` for the large-input branch:
`h = rol1(v1) + rol7(v2) + rol12(v3) + rol18(v4)` followed by the four
`mergeRound` folds in lane order. -/
def mergeAll (l : Lanes) : Nat :=
  let h := add64 (add64 (add64 (rotl 1 l.v1) (rotl 7 l.v2)) (rotl 12 l.v3))
    (rotl 18 l.v4)
  mergeRound (mergeRound (mergeRound (mergeRound h l.v1) l.v2) l.v3) l.v4

/-- The value of `h` in `Digest.Sum64` before `total` is added.  The Go test
`d.total >= 32` compares the signed 64-bit `int` field, so on the stored
residue it reads `32 ≤ total < 2 ^ 63`. -/
def seedH (d : Digest) : Nat :=
  if 32 ≤ d.total ∧ d.total < 2 ^ 63 then mergeAll ⟨d.v1, d.v2, d.v3, d.v4⟩
  else add64 d.v3 prime5

/-- Go method `Digest.Sum64`: seed `h` from the lanes (or `v3 + prime5` for
small totals), add the total byte count, fold the carry bytes through the
three tiers, and avalanche. -/
def Digest.Sum64 (d : Digest) : Nat := finishTail (add64 (seedH d) d.total) d.mem

/-- Modelled from the spec: the one-shot `Sum64` (repository function `sum64`,
not under `src/`; spec section "One-Shot Hashing"): seed the lanes, consume
every full 32-byte block, then finalize with the untouched tail as carry
contents and the input length as the total. -/
def Sum64 (b : List Nat) : Nat :=
  let r := processBlocks initLanes b
  let h := if 32 ≤ b.length then mergeAll r.1 else add64 r.1.v3 prime5
  finishTail (add64 h (b.length % M)) r.2

/-- The canonical digest state reached by writing the byte sequence `s` into a
fresh digest: lanes from block processing, total `|s| mod 2 ^ 64`, and the
unconsumed tail as the carry buffer. -/
def digestOf (s : List Nat) : Digest :=
  let r := processBlocks initLanes s
  ⟨r.1.v1, r.1.v2, r.1.v3, r.1.v4, s.length % M, r.2⟩

/-! ### Equations for the fuelled block-processing loop -/

theorem processBlocksF_nil (f : Nat) (l : Lanes) : processBlocksF f l [] = (l, []) := by
  cases f <;> simp [processBlocksF]

theorem processBlocksF_congr (f f' : Nat) (l : Lanes) (b : List Nat)
    (h : b.length ≤ f) (h' : b.length ≤ f') :
    processBlocksF f l b = processBlocksF f' l b := by
  induction f generalizing f' l b with
  | zero =>
    have hb : b = [] := List.length_eq_zero.mp (Nat.le_zero.mp h)
    subst hb
    rw [processBlocksF_nil, processBlocksF_nil]
  | succ f ih =>
    cases f' with
    | zero =>
      have hb : b = [] := List.length_eq_zero.mp (Nat.le_zero.mp h')
      subst hb
      rw [processBlocksF_nil, processBlocksF_nil]
    | succ f'' =>
      simp only [processBlocksF]
      by_cases h32 : 32 ≤ b.length
      · rw [if_pos h32, if_pos h32]
        exact ih f'' _ _ (by simp; omega) (by simp; omega)
      · rw [if_neg h32, if_neg h32]

theorem processBlocks_stop (l : Lanes) (b : List Nat) (h : b.length < 32) :
    processBlocks l b = (l, b) := by
  unfold processBlocks
  cases hb : b.length with
  | zero =>
    have : b = [] := List.length_eq_zero.mp hb
    subst this
    simp [processBlocksF]
  | succ k =>
    simp only [processBlocksF]
    rw [if_neg (by omega)]

theorem processBlocks_step (l : Lanes) (b : List Nat) (h : 32 ≤ b.length) :
    processBlocks l b = processBlocks (roundBlock l b) (b.drop 32) := by
  unfold processBlocks
  obtain ⟨k, hk⟩ : ∃ k, b.length = k + 1 := ⟨b.length - 1, by omega⟩
  rw [hk]
  simp only [processBlocksF]
  rw [if_pos (hk ▸ h)]
  exact processBlocksF_congr k _ _ _ (by simp; omega) (by simp)

/-! ### Word reads depend only on the bytes they cover -/

theorem u64_append (s b : List Nat) (h : 8 ≤ s.length) : u64 (s ++ b) = u64 s := by
  unfold u64
  rw [List.take_append_of_le_length h]

theorem roundBlock_append (l : Lanes) (s b : List Nat) (h : 32 ≤ s.length) :
    roundBlock l (s ++ b) = roundBlock l s := by
  unfold roundBlock
  rw [u64_append s b (by omega),
    List.drop_append_of_le_length (by omega : 8 ≤ s.length),
    List.drop_append_of_le_length (by omega : 16 ≤ s.length),
    List.drop_append_of_le_length (by omega : 24 ≤ s.length),
    u64_append _ b (by simp; omega), u64_append _ b (by simp; omega),
    u64_append _ b (by simp; omega)]

theorem roundBlock_take (l : Lanes) (b : List Nat) :
    roundBlock l (b.take 32) = roundBlock l b := by
  unfold roundBlock u64
  rw [List.take_take, List.drop_take, List.drop_take, List.drop_take,
    List.take_take, List.take_take, List.take_take]
  norm_num

/-! ### Block processing decomposes along appends -/

theorem processBlocks_append (l : Lanes) (s b : List Nat) :
    processBlocks l (s ++ b) =
      processBlocks (processBlocks l s).1 ((processBlocks l s).2 ++ b) := by
  suffices H : ∀ n l (s : List Nat), s.length = n →
      processBlocks l (s ++ b) =
        processBlocks (processBlocks l s).1 ((processBlocks l s).2 ++ b) from
    H s.length l s rfl
  intro n
  induction n using Nat.strong_induction_on with
  | _ n ih =>
    intro l s hs
    subst hs
    by_cases h32 : 32 ≤ s.length
    · rw [processBlocks_step l s h32,
        processBlocks_step l (s ++ b) (by simp; omega),
        roundBlock_append l s b h32,
        List.drop_append_of_le_length h32]
      exact ih (s.drop 32).length (by simp; omega) _ _ rfl
    · rw [processBlocks_stop l s (by omega)]

theorem processBlocks_rest (l : Lanes) (b : List Nat) :
    (processBlocks l b).2 = b.drop (b.length - b.length % 32) := by
  suffices H : ∀ n l (b : List Nat), b.length = n →
      (processBlocks l b).2 = b.drop (b.length - b.length % 32) from
    H b.length l b rfl
  intro n
  induction n using Nat.strong_induction_on with
  | _ n ih =>
    intro l b hb
    subst hb
    by_cases h32 : 32 ≤ b.length
    · rw [processBlocks_step l b h32, ih (b.drop 32).length (by simp; omega) _ _ rfl]
      rw [List.drop_drop]
      have e1 : (b.drop 32).length = b.length - 32 := by simp
      rw [e1]
      have e2 : (b.length - 32) % 32 = b.length % 32 := by omega
      rw [e2]
      congr 1
      omega
    · rw [processBlocks_stop l b (by omega)]
      have : b.length % 32 = b.length := Nat.mod_eq_of_lt (by omega)
      rw [this]
      simp

theorem processBlocks_rest_length (l : Lanes) (b : List Nat) :
    (processBlocks l b).2.length = b.length % 32 := by
  rw [processBlocks_rest]
  simp
  omega

theorem processBlocks_rest_lt (l : Lanes) (b : List Nat) :
    (processBlocks l b).2.length < 32 := by
  rw [processBlocks_rest_length]
  omega

/-! ### The three branches of `Digest.Write` -/

theorem Write_small (v1 v2 v3 v4 t : Nat) (mem b : List Nat)
    (h : mem.length + b.length < 32) :
    Digest.Write ⟨v1, v2, v3, v4, t, mem⟩ b =
      (⟨v1, v2, v3, v4, (t + b.length) % M, mem ++ b⟩, b.length, none) := by
  simp only [Digest.Write]
  rw [if_pos h]

theorem Write_topoff (v1 v2 v3 v4 t : Nat) (mem b : List Nat)
    (hpos : 0 < mem.length) (hlt : mem.length < 32)
    (hbig : 32 ≤ mem.length + b.length) :
    Digest.Write ⟨v1, v2, v3, v4, t, mem⟩ b =
      (⟨(processBlocks (roundBlock ⟨v1, v2, v3, v4⟩ (mem ++ b))
            (b.drop (32 - mem.length))).1.v1,
        (processBlocks (roundBlock ⟨v1, v2, v3, v4⟩ (mem ++ b))
            (b.drop (32 - mem.length))).1.v2,
        (processBlocks (roundBlock ⟨v1, v2, v3, v4⟩ (mem ++ b))
            (b.drop (32 - mem.length))).1.v3,
        (processBlocks (roundBlock ⟨v1, v2, v3, v4⟩ (mem ++ b))
            (b.drop (32 - mem.length))).1.v4,
        (t + b.length) % M,
        (processBlocks (roundBlock ⟨v1, v2, v3, v4⟩ (mem ++ b))
            (b.drop (32 - mem.length))).2⟩,
       b.length, none) := by
  have hm : mem ++ b.take (32 - mem.length) = (mem ++ b).take 32 := by
    rw [List.take_append_eq_append_take,
      List.take_of_length_le (show mem.length ≤ 32 by omega)]
  have hW : (⟨round v1 (u64 (mem ++ b.take (32 - mem.length))),
      round v2 (u64 ((mem ++ b.take (32 - mem.length)).drop 8)),
      round v3 (u64 ((mem ++ b.take (32 - mem.length)).drop 16)),
      round v4 (u64 ((mem ++ b.take (32 - mem.length)).drop 24))⟩ : Lanes) =
      roundBlock ⟨v1, v2, v3, v4⟩ (mem ++ b) := by
    rw [show (⟨round v1 (u64 (mem ++ b.take (32 - mem.length))),
        round v2 (u64 ((mem ++ b.take (32 - mem.length)).drop 8)),
        round v3 (u64 ((mem ++ b.take (32 - mem.length)).drop 16)),
        round v4 (u64 ((mem ++ b.take (32 - mem.length)).drop 24))⟩ : Lanes) =
        roundBlock ⟨v1, v2, v3, v4⟩ (mem ++ b.take (32 - mem.length)) from rfl]
    rw [hm, roundBlock_take]
  simp only [Digest.Write]
  rw [if_neg (by omega)]
  rw [if_pos hpos]
  by_cases hb' : 32 ≤ (b.drop (32 - mem.length)).length
  · rw [if_pos hb']
    simp only [writeBlocks]
    simp only [hW]
    rw [processBlocks_rest_length (roundBlock ⟨v1, v2, v3, v4⟩ (mem ++ b))
      (b.drop (32 - mem.length))]
    rw [processBlocks_rest (roundBlock ⟨v1, v2, v3, v4⟩ (mem ++ b))
      (b.drop (32 - mem.length))]
  · rw [if_neg hb']
    simp only [hW]
    rw [processBlocks_stop _ _ (by omega), ← hW]

theorem Write_noCarry (v1 v2 v3 v4 t : Nat) (b : List Nat)
    (hbig : 32 ≤ b.length) :
    Digest.Write ⟨v1, v2, v3, v4, t, []⟩ b =
      (⟨(processBlocks ⟨v1, v2, v3, v4⟩ b).1.v1,
        (processBlocks ⟨v1, v2, v3, v4⟩ b).1.v2,
        (processBlocks ⟨v1, v2, v3, v4⟩ b).1.v3,
        (processBlocks ⟨v1, v2, v3, v4⟩ b).1.v4,
        (t + b.length) % M,
        (processBlocks ⟨v1, v2, v3, v4⟩ b).2⟩,
       b.length, none) := by
  simp only [Digest.Write]
  rw [if_neg (show ¬(([] : List Nat).length + b.length < 32) by simp; omega)]
  rw [if_neg (show ¬(0 < ([] : List Nat).length) by simp)]
  dsimp only
  rw [if_pos hbig]
  simp only [writeBlocks]
  rw [processBlocks_rest_length (⟨v1, v2, v3, v4⟩ : Lanes) b]
  rw [processBlocks_rest (⟨v1, v2, v3, v4⟩ : Lanes) b]

/-! ### Write preserves the canonical state -/

theorem Write_digestOf (s b : List Nat) :
    (digestOf s).Write b = (digestOf (s ++ b), b.length, none) := by
  rcases hP : processBlocks initLanes s with ⟨V, rest⟩
  obtain ⟨v1, v2, v3, v4⟩ := V
  have hd : digestOf s = ⟨v1, v2, v3, v4, s.length % M, rest⟩ := by
    unfold digestOf
    rw [hP]
  have hrlt : rest.length < 32 := by
    have h := processBlocks_rest_lt initLanes s
    rw [hP] at h
    exact h
  have happ : processBlocks initLanes (s ++ b) =
      processBlocks ⟨v1, v2, v3, v4⟩ (rest ++ b) := by
    rw [processBlocks_append initLanes s b, hP]
  have htot : (s.length % M + b.length) % M = (s ++ b).length % M := by
    rw [List.length_append, Nat.mod_add_mod]
  have hd2 : digestOf (s ++ b) =
      ⟨(processBlocks ⟨v1, v2, v3, v4⟩ (rest ++ b)).1.v1,
       (processBlocks ⟨v1, v2, v3, v4⟩ (rest ++ b)).1.v2,
       (processBlocks ⟨v1, v2, v3, v4⟩ (rest ++ b)).1.v3,
       (processBlocks ⟨v1, v2, v3, v4⟩ (rest ++ b)).1.v4,
       (s ++ b).length % M,
       (processBlocks ⟨v1, v2, v3, v4⟩ (rest ++ b)).2⟩ := by
    unfold digestOf
    rw [happ]
  rw [hd]
  by_cases hsmall : rest.length + b.length < 32
  · rw [Write_small v1 v2 v3 v4 (s.length % M) rest b hsmall, hd2,
      processBlocks_stop ⟨v1, v2, v3, v4⟩ (rest ++ b) (by simp; omega)]
    simp [htot]
  · by_cases hpos : 0 < rest.length
    · rw [Write_topoff v1 v2 v3 v4 (s.length % M) rest b hpos hrlt (by omega), hd2,
        processBlocks_step ⟨v1, v2, v3, v4⟩ (rest ++ b) (by simp; omega),
        List.drop_append_eq_append_drop,
        List.drop_of_length_le (show rest.length ≤ 32 by omega)]
      simp [htot]
    · have hres0 : rest = [] := List.length_eq_zero.mp (by omega)
      subst hres0
      rw [Write_noCarry v1 v2 v3 v4 (s.length % M) b (by simpa using hsmall), hd2]
      simp [htot]

/-! ### Fresh states and finalization agree with the canonical state -/

theorem New_digestOf : New = digestOf [] := rfl

theorem Reset_digestOf (d : Digest) : d.Reset = digestOf [] := rfl

theorem digestOf_total (s : List Nat) : (digestOf s).total = s.length % M := rfl

theorem digestOf_mem_length (s : List Nat) :
    (digestOf s).mem.length = s.length % 32 := by
  unfold digestOf
  exact processBlocks_rest_length initLanes s

theorem Sum64_digestOf (s : List Nat) (hs : s.length < 2 ^ 63) :
    (digestOf s).Sum64 = Sum64 s := by
  rcases hP : processBlocks initLanes s with ⟨V, rest⟩
  have hd : digestOf s = ⟨V.v1, V.v2, V.v3, V.v4, s.length % M, rest⟩ := by
    unfold digestOf
    rw [hP]
  have hlen : s.length % M = s.length := by
    apply Nat.mod_eq_of_lt
    have h2 : (2 : Nat) ^ 63 < 2 ^ 64 := by norm_num
    unfold M
    omega
  rw [hd]
  simp only [Digest.Sum64, Sum64, seedH, hP, hlen]
  by_cases h32 : 32 ≤ s.length
  · rw [if_pos ⟨h32, hs⟩, if_pos h32]
  · rw [if_neg (by tauto), if_neg h32]

/-! ### Sequences of digest operations

`Sum64` performs no assignment to any field of the receiver (its body in
`xxhash.go` only reads `d.total`, `d.v1..v4`, `d.mem`, `d.n` into locals), so
as a state transformer it is the identity. -/

/-- One public mutating-interface call on a digest. -/
inductive Op where
  | reset : Op
  | write : List Nat → Op
  | sum64 : Op

/-- State transition of one call: `Reset` re-seeds, `Write` feeds bytes, and
`Sum64` leaves every field unchanged (the Go method never writes `d`). -/
def execOp (d : Digest) : Op → Digest
  | .reset => d.Reset
  | .write b => (d.Write b).1
  | .sum64 => d

/-- State after a sequence of calls. -/
def execOps (d : Digest) (ops : List Op) : Digest := ops.foldl execOp d

/-- Bytes logically accumulated since the last reset: a reset discards them, a
write appends, a digest read changes nothing. -/
def opBytes (s : List Nat) : Op → List Nat
  | .reset => []
  | .write b => s ++ b
  | .sum64 => s

/-- The bytes written since the last `Reset` (or construction) across a whole
call sequence. -/
def writtenSinceReset (ops : List Op) : List Nat := ops.foldl opBytes []

theorem execOps_digestOf (ops : List Op) (s : List Nat) :
    execOps (digestOf s) ops = digestOf (ops.foldl opBytes s) := by
  induction ops generalizing s with
  | nil => rfl
  | cons op ops ih =>
    cases op with
    | reset =>
      simp only [execOps, List.foldl_cons, execOp, opBytes]
      rw [Reset_digestOf]
      exact ih []
    | write b =>
      simp only [execOps, List.foldl_cons, execOp, opBytes]
      rw [Write_digestOf s b]
      exact ih (s ++ b)
    | sum64 =>
      simp only [execOps, List.foldl_cons, execOp, opBytes]
      exact ih s

theorem execOps_New (ops : List Op) :
    execOps New ops = digestOf (writtenSinceReset ops) := by
  rw [New_digestOf]
  exact execOps_digestOf ops []

/-! ### Return value and frame lemmas for Write -/

theorem Write_snd (d : Digest) (b : List Nat) :
    (d.Write b).2 = (b.length, none) := by
  simp only [Digest.Write]
  split <;> rfl

theorem Write_total (d : Digest) (b : List Nat) :
    (d.Write b).1.total = (d.total + b.length) % M := by
  simp only [Digest.Write]
  split_ifs <;> rfl

theorem Write_nil (d : Digest) (h : d.mem.length < 32) :
    (d.Write []).1 = ⟨d.v1, d.v2, d.v3, d.v4, d.total % M, d.mem⟩ := by
  simp only [Digest.Write]
  rw [if_pos (by simpa using h)]
  simp

theorem foldWrite_digestOf (chunks : List (List Nat)) (s : List Nat) :
    chunks.foldl (fun d c => (d.Write c).1) (digestOf s) =
      digestOf (s ++ chunks.flatten) := by
  induction chunks generalizing s with
  | nil => simp
  | cons c cs ih =>
    simp only [List.foldl_cons, List.flatten_cons, Write_digestOf]
    rw [ih (s ++ c)]
    simp [List.append_assoc]

/-! ### The claims -/

/-- C1: for every byte sequence and every partition of it into chunks, writing
the chunks in order into a fresh `Digest` and reading `Sum64` gives the same
64-bit value as the one-shot `Sum64` of the whole sequence.  (The Go `int`
length of a byte slice is nonnegative and below `2 ^ 63`, which the hypothesis
records.) -/
theorem chunked_writes_match_oneshot (chunks : List (List Nat))
    (h : chunks.flatten.length < 2 ^ 63) :
    (chunks.foldl (fun d c => (d.Write c).1) New).Sum64 = Sum64 chunks.flatten := by
  have hf := foldWrite_digestOf chunks []
  rw [List.nil_append] at hf
  rw [New_digestOf, hf]
  exact Sum64_digestOf _ h

theorem chunked_writes_match_oneshot_witness :
    ([[1, 2], [], [3, 4, 5]] : List (List Nat)).flatten.length < 2 ^ 63 ∧
    (([[1, 2], [], [3, 4, 5]] : List (List Nat)).foldl
        (fun d c => (d.Write c).1) New).Sum64 =
      Sum64 ([[1, 2], [], [3, 4, 5]] : List (List Nat)).flatten :=
  ⟨by decide, chunked_writes_match_oneshot [[1, 2], [], [3, 4, 5]] (by decide)⟩

/-- C2: the hash of the empty sequence is 0xEF46DB3751D8E999, both one-shot
and via `Sum64` on a freshly constructed or freshly reset digest. -/
theorem hash_empty :
    Sum64 [] = 0xEF46DB3751D8E999 ∧ New.Sum64 = 0xEF46DB3751D8E999 ∧
      ∀ d : Digest, (d.Reset).Sum64 = 0xEF46DB3751D8E999 := by
  refine ⟨by decide, by decide, fun d => ?_⟩
  rw [Reset_digestOf]
  decide

/-- C4: `Write` always returns `(len(b), nil)` — it never fails and never
accepts a partial write — it adds `len(b)` to the running total, and a
zero-length write leaves the state (lanes, carry buffer, total) unchanged. -/
theorem write_always_succeeds (d : Digest) (b : List Nat)
    (h1 : d.mem.length < 32) (h2 : d.total + b.length < 2 ^ 64) :
    (d.Write b).2.1 = b.length ∧ (d.Write b).2.2 = none ∧
      (d.Write b).1.total = d.total + b.length ∧
      (b = [] → (d.Write b).1 = d) := by
  refine ⟨by rw [Write_snd], by rw [Write_snd], ?_, ?_⟩
  · rw [Write_total]
    exact Nat.mod_eq_of_lt h2
  · intro hb
    subst hb
    rw [Write_nil d h1]
    have ht : d.total % M = d.total := Nat.mod_eq_of_lt (by simpa [M] using h2)
    obtain ⟨v1, v2, v3, v4, t, mem⟩ := d
    simpa using ht

theorem write_always_succeeds_witness :
    (⟨1, 2, 3, 4, 10, [9]⟩ : Digest).mem.length < 32 ∧
    (⟨1, 2, 3, 4, 10, [9]⟩ : Digest).total + ([5, 6] : List Nat).length < 2 ^ 64 ∧
    (((⟨1, 2, 3, 4, 10, [9]⟩ : Digest).Write [5, 6]).2.1 = ([5, 6] : List Nat).length ∧
      ((⟨1, 2, 3, 4, 10, [9]⟩ : Digest).Write [5, 6]).2.2 = none ∧
      ((⟨1, 2, 3, 4, 10, [9]⟩ : Digest).Write [5, 6]).1.total =
        (⟨1, 2, 3, 4, 10, [9]⟩ : Digest).total + ([5, 6] : List Nat).length ∧
      (([5, 6] : List Nat) = [] →
        ((⟨1, 2, 3, 4, 10, [9]⟩ : Digest).Write [5, 6]).1 = ⟨1, 2, 3, 4, 10, [9]⟩)) :=
  ⟨by decide, by decide,
    write_always_succeeds ⟨1, 2, 3, 4, 10, [9]⟩ [5, 6] (by decide) (by decide)⟩

/-- C5: every digest reachable from construction by `Reset`, `Write` and
`Sum64` calls has, at rest, a carry length strictly below 32, and its `total`
equals the number of bytes written since the last reset. -/
theorem reachable_state_invariant (ops : List Op)
    (h : (writtenSinceReset ops).length < 2 ^ 64) :
    (execOps New ops).mem.length < 32 ∧
      (execOps New ops).total = (writtenSinceReset ops).length := by
  rw [execOps_New]
  refine ⟨?_, ?_⟩
  · rw [digestOf_mem_length]
    omega
  · rw [digestOf_total]
    exact Nat.mod_eq_of_lt (by simpa [M] using h)

theorem reachable_state_invariant_witness :
    (writtenSinceReset [Op.write [1, 2, 3], Op.sum64, Op.reset,
        Op.write [7, 7, 7, 7]]).length < 2 ^ 64 ∧
    ((execOps New [Op.write [1, 2, 3], Op.sum64, Op.reset,
        Op.write [7, 7, 7, 7]]).mem.length < 32 ∧
      (execOps New [Op.write [1, 2, 3], Op.sum64, Op.reset,
        Op.write [7, 7, 7, 7]]).total =
        (writtenSinceReset [Op.write [1, 2, 3], Op.sum64, Op.reset,
          Op.write [7, 7, 7, 7]]).length) :=
  ⟨by decide, reachable_state_invariant _ (by decide)⟩

/-- C6: after `Reset` (and equally after `New`) the lanes hold
`v1 = (prime1 + prime2) mod 2^64`, `v2 = prime2`, `v3 = 0` and
`v4 = 2^64 - prime1` (the unsigned wraparound of `-prime1`), with an empty
carry buffer and zero total. -/
theorem reset_initial_state :
    ∀ d : Digest, (d.Reset).v1 = (prime1 + prime2) % 2 ^ 64 ∧
      (d.Reset).v2 = prime2 ∧ (d.Reset).v3 = 0 ∧
      (d.Reset).v4 = 2 ^ 64 - prime1 ∧
      (d.Reset).mem.length = 0 ∧ (d.Reset).total = 0 ∧ New = d.Reset := by
  intro d
  refine ⟨rfl, rfl, rfl, by rfl, rfl, rfl, rfl⟩

/-- C8: `Sum64` is non-destructive: it is the identity on the digest state,
so inserting a `Sum64` call anywhere in a call sequence does not change the
resulting state, and a repeated read returns the same value. -/
theorem sum64_nondestructive :
    ∀ (d : Digest) (pre post : List Op),
      execOp d Op.sum64 = d ∧
      execOps d (pre ++ Op.sum64 :: post) = execOps d (pre ++ post) ∧
      (execOps d pre).Sum64 = (execOps d (pre ++ [Op.sum64])).Sum64 := by
  intro d pre post
  refine ⟨rfl, ?_, ?_⟩
  · unfold execOps
    rw [List.foldl_append, List.foldl_append]
    rfl
  · unfold execOps
    rw [List.foldl_append]
    rfl

/-- C9: the running byte count is carried as a full unsigned 64-bit quantity:
on any reachable state it is below `2 ^ 64`, equals the cumulative count
(for any count up to `2 ^ 64 - 1`), and the value added to `h` during
finalization is exactly that full count. -/
theorem total_unsigned64 (ops : List Op)
    (h : (writtenSinceReset ops).length < 2 ^ 64) :
    (execOps New ops).total < 2 ^ 64 ∧
      (execOps New ops).total = (writtenSinceReset ops).length ∧
      (execOps New ops).Sum64 =
        finishTail (add64 (seedH (execOps New ops))
          (writtenSinceReset ops).length) (execOps New ops).mem := by
  have h1 : (execOps New ops).total = (writtenSinceReset ops).length := by
    rw [execOps_New, digestOf_total]
    exact Nat.mod_eq_of_lt (by simpa [M] using h)
  refine ⟨?_, h1, ?_⟩
  · rw [execOps_New, digestOf_total]
    have : 0 < M := by norm_num [M]
    exact lt_of_lt_of_le (Nat.mod_lt _ this) (by norm_num [M])
  · unfold Digest.Sum64
    rw [h1]

theorem total_unsigned64_witness :
    (writtenSinceReset [Op.write [1], Op.write [2, 3]]).length < 2 ^ 64 ∧
    ((execOps New [Op.write [1], Op.write [2, 3]]).total < 2 ^ 64 ∧
      (execOps New [Op.write [1], Op.write [2, 3]]).total =
        (writtenSinceReset [Op.write [1], Op.write [2, 3]]).length ∧
      (execOps New [Op.write [1], Op.write [2, 3]]).Sum64 =
        finishTail (add64 (seedH (execOps New [Op.write [1], Op.write [2, 3]]))
          (writtenSinceReset [Op.write [1], Op.write [2, 3]]).length)
          (execOps New [Op.write [1], Op.write [2, 3]]).mem) :=
  ⟨by decide, total_unsigned64 _ (by decide)⟩

/-! ### The finalization tail, phrased as the spec states it

To give the three-tier description independent content, the tiers are
restated here structurally: tier (a) as a fold over the list of leading
8-byte little-endian words, tier (b) as a single conditional step on the
remainder after `8 * (n / 8)` bytes, tier (c) as a fold over the remaining
bytes.  The code's loops (`tail8`, `tail4`, `tail1`) are then proved equal to
this description. -/

/-- Fuelled splitting of a byte list into its leading 8-byte words. -/
def words8F : Nat → List Nat → List Nat
  | 0, _ => []
  | f + 1, b => if 8 ≤ b.length then u64 b :: words8F f (b.drop 8) else []

/-- The `⌊n/8⌋` leading 8-byte little-endian words of a byte list. -/
def words8 (b : List Nat) : List Nat := words8F b.length b

/-- The three finalization tiers as the claim phrases them: fold the leading
8-byte words, then one optional 4-byte step on the remainder, then the
leftover single bytes. -/
def specTail (h : Nat) (b : List Nat) : Nat :=
  let hA := (words8 b).foldl
    (fun h w => add64 (mul64 (rotl 27 (h ^^^ round 0 w)) prime1) prime4) h
  let r := b.drop (8 * (b.length / 8))
  let hB := if 4 ≤ r.length then
      add64 (mul64 (rotl 23 (hA ^^^ mul64 (u32 r) prime1)) prime2) prime3
    else hA
  let r2 := if 4 ≤ r.length then r.drop 4 else r
  r2.foldl (fun h c => mul64 (rotl 11 (h ^^^ mul64 (c % 256) prime5)) prime1) hB

theorem tail8F_nil (f h : Nat) : tail8F f h [] = (h, []) := by
  cases f <;> simp [tail8F]

theorem tail8F_congr (f f' h : Nat) (b : List Nat)
    (hf : b.length ≤ f) (hf' : b.length ≤ f') :
    tail8F f h b = tail8F f' h b := by
  induction f generalizing f' h b with
  | zero =>
    have hb : b = [] := List.length_eq_zero.mp (Nat.le_zero.mp hf)
    subst hb
    rw [tail8F_nil, tail8F_nil]
  | succ f ih =>
    cases f' with
    | zero =>
      have hb : b = [] := List.length_eq_zero.mp (Nat.le_zero.mp hf')
      subst hb
      rw [tail8F_nil, tail8F_nil]
    | succ f'' =>
      simp only [tail8F]
      by_cases h8 : 8 ≤ b.length
      · rw [if_pos h8, if_pos h8]
        exact ih _ _ _ (by simp; omega) (by simp; omega)
      · rw [if_neg h8, if_neg h8]

theorem tail8_stop (h : Nat) (b : List Nat) (hb : b.length < 8) :
    tail8 h b = (h, b) := by
  unfold tail8
  cases hl : b.length with
  | zero =>
    have : b = [] := List.length_eq_zero.mp hl
    subst this
    simp [tail8F]
  | succ k =>
    simp only [tail8F]
    rw [if_neg (by omega)]

theorem tail8_step (h : Nat) (b : List Nat) (hb : 8 ≤ b.length) :
    tail8 h b =
      tail8 (add64 (mul64 (rotl 27 (h ^^^ round 0 (u64 b))) prime1) prime4)
        (b.drop 8) := by
  unfold tail8
  obtain ⟨k, hk⟩ : ∃ k, b.length = k + 1 := ⟨b.length - 1, by omega⟩
  rw [hk]
  simp only [tail8F]
  rw [if_pos (hk ▸ hb)]
  exact tail8F_congr k _ _ _ (by simp; omega) (by simp)

theorem words8_stop (b : List Nat) (hb : b.length < 8) : words8 b = [] := by
  unfold words8
  cases hl : b.length with
  | zero =>
    have : b = [] := List.length_eq_zero.mp hl
    subst this
    simp [words8F]
  | succ k =>
    simp only [words8F]
    rw [if_neg (by omega)]

theorem words8F_congr (f f' : Nat) (b : List Nat)
    (hf : b.length ≤ f) (hf' : b.length ≤ f') :
    words8F f b = words8F f' b := by
  induction f generalizing f' b with
  | zero =>
    have hb : b = [] := List.length_eq_zero.mp (Nat.le_zero.mp hf)
    subst hb
    cases f' <;> simp [words8F]
  | succ f ih =>
    cases f' with
    | zero =>
      have hb : b = [] := List.length_eq_zero.mp (Nat.le_zero.mp hf')
      subst hb
      simp [words8F]
    | succ f'' =>
      simp only [words8F]
      by_cases h8 : 8 ≤ b.length
      · rw [if_pos h8, if_pos h8]
        rw [ih f'' (b.drop 8) (by simp; omega) (by simp; omega)]
      · rw [if_neg h8, if_neg h8]

theorem words8_step (b : List Nat) (hb : 8 ≤ b.length) :
    words8 b = u64 b :: words8 (b.drop 8) := by
  unfold words8
  obtain ⟨k, hk⟩ : ∃ k, b.length = k + 1 := ⟨b.length - 1, by omega⟩
  rw [hk]
  simp only [words8F]
  rw [if_pos (hk ▸ hb)]
  rw [words8F_congr k (b.drop 8).length (b.drop 8) (by simp; omega) (by simp)]

theorem tail8_eq_words8 (h : Nat) (b : List Nat) :
    tail8 h b =
      ((words8 b).foldl
        (fun h w => add64 (mul64 (rotl 27 (h ^^^ round 0 w)) prime1) prime4) h,
       b.drop (8 * (b.length / 8))) := by
  suffices H : ∀ n h (b : List Nat), b.length = n →
      tail8 h b =
        ((words8 b).foldl
          (fun h w => add64 (mul64 (rotl 27 (h ^^^ round 0 w)) prime1) prime4) h,
         b.drop (8 * (b.length / 8))) from H b.length h b rfl
  intro n
  induction n using Nat.strong_induction_on with
  | _ n ih =>
    intro h b hb
    subst hb
    by_cases h8 : 8 ≤ b.length
    · rw [tail8_step h b h8, words8_step b h8, List.foldl_cons,
        ih (b.drop 8).length (by simp; omega) _ _ rfl, List.drop_drop]
      have harith : 8 + 8 * ((b.drop 8).length / 8) = 8 * (b.length / 8) := by
        simp only [List.length_drop]
        omega
      rw [harith]
    · rw [tail8_stop h b (by omega), words8_stop b (by omega)]
      have : b.length / 8 = 0 := by omega
      rw [this]
      simp

theorem tail1_eq_foldl (h : Nat) (b : List Nat) :
    tail1 h b =
      b.foldl (fun h c => mul64 (rotl 11 (h ^^^ mul64 (c % 256) prime5)) prime1) h := by
  induction b generalizing h with
  | nil => rfl
  | cons c cs ih =>
    simp only [tail1, List.foldl_cons]
    exact ih _

theorem finishTail_eq_specTail (h : Nat) (b : List Nat) :
    finishTail h b = avalanche (specTail h b) := by
  unfold finishTail specTail
  rw [tail8_eq_words8]
  by_cases h4 : 4 ≤ (b.drop (8 * (b.length / 8))).length
  · simp only [tail4]
    rw [if_pos h4, if_pos h4, if_pos h4, tail1_eq_foldl]
  · simp only [tail4]
    rw [if_neg h4, if_neg h4, if_neg h4, tail1_eq_foldl]

/-- C3: on any digest with carry length below 32, `Sum64` consumes the carry
bytes in exactly the three size-tiers — 8-byte words with
`h = rotl(h XOR round(0,w), 27)*prime1 + prime4`, one optional 4-byte step
with `h = rotl(h XOR w32*prime1, 23)*prime2 + prime3`, then single bytes with
`h = rotl(h XOR byte*prime5, 11)*prime1` — and finishes with the avalanche,
all modulo `2 ^ 64`. -/
theorem sum64_tail_three_tiers (d : Digest) (_h : d.mem.length < 32) :
    d.Sum64 = avalanche (specTail (add64 (seedH d) d.total) d.mem) :=
  finishTail_eq_specTail (add64 (seedH d) d.total) d.mem

theorem sum64_tail_three_tiers_witness :
    (⟨1, 2, 3, 4, 45, [10, 20, 30, 40, 50, 60, 70, 80, 90, 100, 110, 120, 130]⟩ :
        Digest).mem.length < 32 ∧
    (⟨1, 2, 3, 4, 45, [10, 20, 30, 40, 50, 60, 70, 80, 90, 100, 110, 120, 130]⟩ :
        Digest).Sum64 =
      avalanche (specTail
        (add64 (seedH ⟨1, 2, 3, 4, 45,
          [10, 20, 30, 40, 50, 60, 70, 80, 90, 100, 110, 120, 130]⟩)
          (⟨1, 2, 3, 4, 45, [10, 20, 30, 40, 50, 60, 70, 80, 90, 100, 110, 120, 130]⟩ :
            Digest).total)
        (⟨1, 2, 3, 4, 45, [10, 20, 30, 40, 50, 60, 70, 80, 90, 100, 110, 120, 130]⟩ :
          Digest).mem) :=
  ⟨by decide,
    sum64_tail_three_tiers
      ⟨1, 2, 3, 4, 45, [10, 20, 30, 40, 50, 60, 70, 80, 90, 100, 110, 120, 130]⟩
      (by decide)⟩

/-! ### Rotation as the spec phrases it

The spec states `round` and `mergeRound` in terms of `rotate_left`.  Here
rotate-left is defined independently in shift-and-or form, and the
arithmetical `rotl` used by the embedding is proved to coincide with it. -/

/-- 64-bit rotate-left in the conventional shift-and-or form. -/
def rotateLeft64 (x k : Nat) : Nat := ((x <<< k) % 2 ^ 64) ||| (x >>> (64 - k))

theorem mul_pow_lor_eq_add (a b k : Nat) (hb : b < 2 ^ k) :
    a * 2 ^ k ||| b = a * 2 ^ k + b := by
  induction k generalizing a b with
  | zero =>
    have hb0 : b = 0 := by omega
    subst hb0
    simp
  | succ k ih =>
    have ha : a * 2 ^ (k + 1) = Nat.bit false (a * 2 ^ k) := by
      simp [Nat.bit_val, Nat.pow_succ]
      ring
    rw [ha]
    conv_lhs => rw [← Nat.bit_decide_mod_two_eq_one_shiftRight_one b]
    rw [Nat.lor_bit]
    have hb2 : b >>> 1 < 2 ^ k := by
      rw [Nat.shiftRight_one]
      omega
    rw [ih a _ hb2]
    rw [Nat.bit_val, Nat.bit_val]
    simp only [Bool.false_or]
    rw [Nat.shiftRight_one]
    rcases Nat.mod_two_eq_zero_or_one b with h2 | h2 <;> simp [h2] <;> omega

theorem rotl_eq_rotateLeft64 (k x : Nat) (hk : k ≤ 64) (hx : x < 2 ^ 64) :
    rotl k x = rotateLeft64 x k := by
  unfold rotl rotateLeft64
  rw [Nat.shiftLeft_eq, Nat.shiftRight_eq_div_pow]
  have hpow : (2 : Nat) ^ (64 - k) * 2 ^ k = 2 ^ 64 := by
    rw [← Nat.pow_add]
    congr 1
    omega
  have h1 : x * 2 ^ k % 2 ^ 64 = x % 2 ^ (64 - k) * 2 ^ k := by
    rw [← hpow]
    exact Nat.mul_mod_mul_right (2 ^ k) x (2 ^ (64 - k))
  have h2 : x / 2 ^ (64 - k) < 2 ^ k := by
    apply Nat.div_lt_of_lt_mul
    rw [hpow]
    exact hx
  rw [h1, mul_pow_lor_eq_add _ _ _ h2]

/-- C7: `round(acc, input)` is `rotate_left((acc + input*prime2) mod 2^64, 31)
* prime1 mod 2^64`, and `mergeRound(acc, val)` is
`((acc XOR round(0, val)) * prime1 + prime4) mod 2^64`, for all inputs. -/
theorem round_mergeRound_formulas :
    ∀ acc input val : Nat,
      round acc input =
        rotateLeft64 ((acc + input * prime2) % 2 ^ 64) 31 * prime1 % 2 ^ 64 ∧
      mergeRound acc val = ((acc ^^^ round 0 val) * prime1 + prime4) % 2 ^ 64 := by
  intro acc input val
  constructor
  · have harg : add64 acc (mul64 input prime2) = (acc + input * prime2) % 2 ^ 64 := by
      unfold add64 mul64 M
      rw [Nat.add_mod_mod]
    unfold round
    rw [harg, rotl_eq_rotateLeft64 31 _ (by omega)
      (Nat.mod_lt _ (by norm_num))]
    unfold mul64 M
    rfl
  · unfold mergeRound add64 mul64 M
    rw [Nat.mod_add_mod]

/-! ### Bounds-checked model

A second, total rendering of `Write` and `Sum64` in which the carry buffer is
the full fixed 32-byte array together with the Go `n` field, and every Go
slice or index expression carries its bounds check: `l[i:j]` demands
`i ≤ j ≤ len`, `l[i:]` demands `i ≤ len`, `l[i]` demands `i < len`, and
`copy(mem[i:], src)` demands `i ≤ len` before writing
`min(len(src), len-i)` bytes at offset `i`.  A failed check — a Go panic —
is `none`. -/

/-- Go slice expression `l[i:j]` with its bounds check. -/
def slice (l : List Nat) (i j : Nat) : Option (List Nat) :=
  if i ≤ j ∧ j ≤ l.length then some ((l.drop i).take (j - i)) else none

/-- Go slice expression `l[i:]` with its bounds check. -/
def sliceFrom (l : List Nat) (i : Nat) : Option (List Nat) :=
  if i ≤ l.length then some (l.drop i) else none

/-- Go index expression `l[i]` with its bounds check. -/
def index (l : List Nat) (i : Nat) : Option Nat :=
  if h : i < l.length then some (l.get ⟨i, h⟩) else none

/-- Go `copy(mem[i:], src)`: forming `mem[i:]` checks `i ≤ len(mem)`; the
copy then overwrites `min(len(src), len(mem)-i)` bytes at offset `i`. -/
def copyAt (mem : List Nat) (i : Nat) (src : List Nat) : Option (List Nat) :=
  if i ≤ mem.length then
    some (mem.take i ++ src.take (mem.length - i) ++
      mem.drop (i + min src.length (mem.length - i)))
  else none

/-- The Go `Digest` struct for the bounds-checked model: the 32-byte array
`mem` is kept whole and `n` is explicit. -/
structure CDigest where
  v1 : Nat
  v2 : Nat
  v3 : Nat
  v4 : Nat
  total : Nat
  mem : List Nat
  n : Nat
deriving DecidableEq, Repr

/-- Modelled from the spec: the bounds-checked block-processing loop
(`writeBlocks` is not under `src/`); each 8-byte word read and the advance
`b = b[32:]` carry their checks. -/
def processBlocksCF : Nat → Lanes → List Nat → Option (Lanes × List Nat)
  | 0, l, b => if 32 ≤ b.length then none else some (l, b)
  | f + 1, l, b =>
    if 32 ≤ b.length then
      (slice b 0 8).bind fun w0 =>
      (slice b 8 16).bind fun w1 =>
      (slice b 16 24).bind fun w2 =>
      (slice b 24 32).bind fun w3 =>
      (sliceFrom b 32).bind fun b1 =>
      processBlocksCF f ⟨round l.v1 (u64 w0), round l.v2 (u64 w1),
        round l.v3 (u64 w2), round l.v4 (u64 w3)⟩ b1
    else some (l, b)

/-- Modelled from the spec: bounds-checked `writeBlocks`. -/
def writeBlocksC (d : CDigest) (b : List Nat) : Option (CDigest × Nat) :=
  (processBlocksCF b.length ⟨d.v1, d.v2, d.v3, d.v4⟩ b).bind fun r =>
  some ({ d with
          v1 := r.1.v1,
          v2 := r.1.v2,
          v3 := r.1.v3,
          v4 := r.1.v4 },
    b.length - r.2.length)

/-- Go method `Digest.Write` in the bounds-checked model; `none` marks a
panicking slice operation. -/
def CDigest.Write (d : CDigest) (b : List Nat) :
    Option (CDigest × Nat × Option Unit) :=
  let n := b.length
  let d0 : CDigest := { d with total := (d.total + b.length) % M }
  if d0.n + b.length < 32 then
    (copyAt d0.mem d0.n b).bind fun mem1 =>
    some ({ d0 with mem := mem1, n := d0.n + b.length }, n, none)
  else
    ((if 0 < d0.n then
        (copyAt d0.mem d0.n b).bind fun mem1 =>
        (slice mem1 0 8).bind fun w0 =>
        (slice mem1 8 16).bind fun w1 =>
        (slice mem1 16 24).bind fun w2 =>
        (slice mem1 24 32).bind fun w3 =>
        (sliceFrom b (32 - d0.n)).bind fun b1 =>
        some ({ d0 with
                v1 := round d0.v1 (u64 w0),
                v2 := round d0.v2 (u64 w1),
                v3 := round d0.v3 (u64 w2),
                v4 := round d0.v4 (u64 w3),
                mem := mem1,
                n := 0 },
          b1)
      else some (d0, b)) : Option (CDigest × List Nat)).bind fun p =>
    ((if 32 ≤ p.2.length then
        (writeBlocksC p.1 p.2).bind fun r =>
        (sliceFrom p.2 r.2).bind fun b2 =>
        some (r.1, b2)
      else some p) : Option (CDigest × List Nat)).bind fun q =>
    (copyAt q.1.mem 0 q.2).bind fun mem2 =>
    some ({ q.1 with mem := mem2, n := q.2.length }, n, none)

/-- Bounds-checked first finalization tier (8-byte words over `mem[0:n]`). -/
def tailC8 (mem : List Nat) (e : Nat) : Nat → Nat → Nat → Option (Nat × Nat)
  | 0, h, i => if i + 8 ≤ e then none else some (h, i)
  | f + 1, h, i =>
    if i + 8 ≤ e then
      (slice mem i (i + 8)).bind fun w =>
      tailC8 mem e f
        (add64 (mul64 (rotl 27 (h ^^^ round 0 (u64 w))) prime1) prime4) (i + 8)
    else some (h, i)

/-- Bounds-checked third finalization tier (single bytes of `mem[0:n]`). -/
def tailC1 (mem : List Nat) (e : Nat) : Nat → Nat → Nat → Option Nat
  | 0, h, i => if i < e then none else some h
  | f + 1, h, i =>
    if i < e then
      (index mem i).bind fun c =>
      tailC1 mem e f (mul64 (rotl 11 (h ^^^ mul64 (c % 256) prime5)) prime1) (i + 1)
    else some h

/-- Go method `Digest.Sum64` in the bounds-checked model. -/
def CDigest.Sum64 (d : CDigest) : Option Nat :=
  let h0 := if 32 ≤ d.total ∧ d.total < 2 ^ 63 then
      mergeAll ⟨d.v1, d.v2, d.v3, d.v4⟩
    else add64 d.v3 prime5
  (tailC8 d.mem d.n d.n (add64 h0 d.total) 0).bind fun p =>
  ((if p.2 + 4 ≤ d.n then
      (slice d.mem p.2 (p.2 + 4)).bind fun w =>
      some (add64 (mul64 (rotl 23 (p.1 ^^^ mul64 (u32 w) prime1)) prime2) prime3,
        p.2 + 4)
    else some p) : Option (Nat × Nat)).bind fun q =>
  (tailC1 d.mem d.n d.n q.1 q.2).bind fun h4 =>
  some (avalanche h4)

/-! ### Every bounds check passes under the resting invariant -/

theorem slice_eq (l : List Nat) (i j : Nat) (h : i ≤ j ∧ j ≤ l.length) :
    slice l i j = some ((l.drop i).take (j - i)) := if_pos h

theorem sliceFrom_eq (l : List Nat) (i : Nat) (h : i ≤ l.length) :
    sliceFrom l i = some (l.drop i) := if_pos h

theorem index_eq (l : List Nat) (i : Nat) (h : i < l.length) :
    index l i = some (l.get ⟨i, h⟩) := dif_pos h

theorem copyAt_eq (mem : List Nat) (i : Nat) (src : List Nat)
    (h : i ≤ mem.length) :
    copyAt mem i src = some (mem.take i ++ src.take (mem.length - i) ++
      mem.drop (i + min src.length (mem.length - i))) := if_pos h

theorem copyAt_val_length (mem : List Nat) (i : Nat) (src : List Nat)
    (h : i ≤ mem.length) :
    (mem.take i ++ src.take (mem.length - i) ++
      mem.drop (i + min src.length (mem.length - i))).length = mem.length := by
  simp only [List.length_append, List.length_take, List.length_drop]
  omega

theorem slice_isSome (l : List Nat) (i j : Nat) (h : i ≤ j ∧ j ≤ l.length) :
    (slice l i j).isSome := by
  rw [slice_eq l i j h]
  rfl

theorem sliceFrom_isSome (l : List Nat) (i : Nat) (h : i ≤ l.length) :
    (sliceFrom l i).isSome := by
  rw [sliceFrom_eq l i h]
  rfl

theorem index_isSome (l : List Nat) (i : Nat) (h : i < l.length) :
    (index l i).isSome := by
  rw [index_eq l i h]
  rfl

theorem copyAt_isSome (mem : List Nat) (i : Nat) (src : List Nat)
    (h : i ≤ mem.length) : (copyAt mem i src).isSome := by
  rw [copyAt_eq mem i src h]
  rfl

theorem bind_isSome {α β : Type} (o : Option α) (f : α → Option β)
    (ho : o.isSome) (hf : ∀ a, (f a).isSome) : (o.bind f).isSome := by
  obtain ⟨a, ha⟩ := Option.isSome_iff_exists.mp ho
  rw [ha]
  exact hf a

theorem bind_isSome_eq {α β : Type} (o : Option α) (f : α → Option β) (a : α)
    (ho : o = some a) (hf : (f a).isSome) : (o.bind f).isSome := by
  rw [ho]
  exact hf

theorem processBlocksCF_isSome (f : Nat) (l : Lanes) (b : List Nat)
    (hf : b.length ≤ f) : (processBlocksCF f l b).isSome := by
  induction f generalizing l b with
  | zero =>
    have h32 : ¬ 32 ≤ b.length := by omega
    simp [processBlocksCF, h32]
  | succ f ih =>
    by_cases h32 : 32 ≤ b.length
    · simp only [processBlocksCF]
      rw [if_pos h32]
      refine bind_isSome _ _ (slice_isSome b 0 8 (by omega)) (fun w0 => ?_)
      refine bind_isSome _ _ (slice_isSome b 8 16 (by omega)) (fun w1 => ?_)
      refine bind_isSome _ _ (slice_isSome b 16 24 (by omega)) (fun w2 => ?_)
      refine bind_isSome _ _ (slice_isSome b 24 32 (by omega)) (fun w3 => ?_)
      refine bind_isSome_eq _ _ (b.drop 32) (sliceFrom_eq b 32 (by omega)) ?_
      exact ih _ _ (by simp; omega)
    · simp [processBlocksCF, h32]

theorem writeBlocksC_isSome (d : CDigest) (b : List Nat) :
    (writeBlocksC d b).isSome := by
  unfold writeBlocksC
  refine bind_isSome _ _
    (processBlocksCF_isSome b.length ⟨d.v1, d.v2, d.v3, d.v4⟩ b (Nat.le_refl _))
    (fun r => rfl)

theorem writeBlocksC_snd_le (d : CDigest) (b : List Nat) (r : CDigest × Nat)
    (h : writeBlocksC d b = some r) : r.2 ≤ b.length := by
  unfold writeBlocksC at h
  rcases hP : processBlocksCF b.length ⟨d.v1, d.v2, d.v3, d.v4⟩ b with _ | q
  · rw [hP] at h
    simp at h
  · rw [hP] at h
    simp only [Option.some_bind, Option.some.injEq] at h
    subst h
    simp

theorem WriteC_isSome (d : CDigest) (b : List Nat)
    (h1 : d.n < 32) (h2 : d.mem.length = 32) :
    (d.Write b).isSome := by
  obtain ⟨v1, v2, v3, v4, t, mem, n⟩ := d
  simp only at h1 h2
  simp only [CDigest.Write]
  by_cases hsmall : n + b.length < 32
  · rw [if_pos hsmall]
    exact bind_isSome _ _ (copyAt_isSome mem n b (by omega)) (fun mem1 => rfl)
  · rw [if_neg hsmall]
    refine bind_isSome _ _ ?_ (fun p => ?_)
    · by_cases hn : 0 < n
      · rw [if_pos hn]
        have hlen := copyAt_val_length mem n b (by omega)
        refine bind_isSome_eq _ _ _ (copyAt_eq mem n b (by omega)) ?_
        refine bind_isSome _ _ (slice_isSome _ 0 8 (by omega)) (fun w0 => ?_)
        refine bind_isSome _ _ (slice_isSome _ 8 16 (by omega)) (fun w1 => ?_)
        refine bind_isSome _ _ (slice_isSome _ 16 24 (by omega)) (fun w2 => ?_)
        refine bind_isSome _ _ (slice_isSome _ 24 32 (by omega)) (fun w3 => ?_)
        refine bind_isSome _ _ (sliceFrom_isSome b (32 - n) (by omega))
          (fun b1 => rfl)
      · rw [if_neg hn]
        rfl
    · refine bind_isSome _ _ ?_ (fun q => ?_)
      · by_cases hb1 : 32 ≤ p.2.length
        · rw [if_pos hb1]
          obtain ⟨r, hr⟩ := Option.isSome_iff_exists.mp
            (writeBlocksC_isSome p.1 p.2)
          refine bind_isSome_eq _ _ r hr ?_
          exact bind_isSome _ _
            (sliceFrom_isSome p.2 r.2 (writeBlocksC_snd_le p.1 p.2 r hr))
            (fun b2 => rfl)
        · rw [if_neg hb1]
          rfl
      · exact bind_isSome _ _ (copyAt_isSome q.1.mem 0 q.2 (Nat.zero_le _))
          (fun mem2 => rfl)

theorem tailC8_isSome (mem : List Nat) (e : Nat) (hmem : e ≤ mem.length) :
    ∀ f h i, e ≤ i + f → (tailC8 mem e f h i).isSome := by
  intro f
  induction f with
  | zero =>
    intro h i hi
    simp only [tailC8]
    rw [if_neg (by omega)]
    rfl
  | succ f ih =>
    intro h i hi
    by_cases hc : i + 8 ≤ e
    · simp only [tailC8]
      rw [if_pos hc]
      exact bind_isSome _ _ (slice_isSome mem i (i + 8) (by omega))
        (fun w => ih _ _ (by omega))
    · simp only [tailC8]
      rw [if_neg hc]
      rfl

theorem tailC1_isSome (mem : List Nat) (e : Nat) (hmem : e ≤ mem.length) :
    ∀ f h i, e ≤ i + f → (tailC1 mem e f h i).isSome := by
  intro f
  induction f with
  | zero =>
    intro h i hi
    simp only [tailC1]
    rw [if_neg (by omega)]
    rfl
  | succ f ih =>
    intro h i hi
    by_cases hc : i < e
    · simp only [tailC1]
      rw [if_pos hc]
      exact bind_isSome _ _ (index_isSome mem i (by omega))
        (fun c => ih _ _ (by omega))
    · simp only [tailC1]
      rw [if_neg hc]
      rfl

theorem Sum64C_isSome (d : CDigest) (h1 : d.n < 32) (h2 : d.mem.length = 32) :
    (d.Sum64).isSome := by
  obtain ⟨v1, v2, v3, v4, t, mem, n⟩ := d
  simp only at h1 h2
  simp only [CDigest.Sum64]
  refine bind_isSome _ _ (tailC8_isSome mem n (by omega) n _ 0 (by omega))
    (fun p => ?_)
  refine bind_isSome _ _ ?_ (fun q => ?_)
  · by_cases hc4 : p.2 + 4 ≤ n
    · rw [if_pos hc4]
      exact bind_isSome _ _ (slice_isSome mem p.2 (p.2 + 4) (by omega))
        (fun w => rfl)
    · rw [if_neg hc4]
      rfl
  · refine bind_isSome _ _ (tailC1_isSome mem n (by omega) n q.1 q.2 (by omega))
      (fun h4 => rfl)

/-- C10: under the resting invariant `n < 32` (with the fixed 32-byte carry
array), every slice and index operation inside `Write` and `Sum64` is in
bounds for any input length, so neither can panic: the bounds-checked
embedding never takes its error branch. -/
theorem write_sum64_no_panic (d : CDigest) (b : List Nat)
    (h1 : d.n < 32) (h2 : d.mem.length = 32) :
    (d.Write b).isSome ∧ (d.Sum64).isSome :=
  ⟨WriteC_isSome d b h1 h2, Sum64C_isSome d h1 h2⟩

theorem write_sum64_no_panic_witness :
    (⟨5, 6, 7, 8, 3, List.replicate 32 0, 3⟩ : CDigest).n < 32 ∧
    (⟨5, 6, 7, 8, 3, List.replicate 32 0, 3⟩ : CDigest).mem.length = 32 ∧
    (((⟨5, 6, 7, 8, 3, List.replicate 32 0, 3⟩ : CDigest).Write
        (List.replicate 40 9)).isSome ∧
      ((⟨5, 6, 7, 8, 3, List.replicate 32 0, 3⟩ : CDigest).Sum64).isSome) :=
  ⟨by decide, by decide,
    write_sum64_no_panic ⟨5, 6, 7, 8, 3, List.replicate 32 0, 3⟩
      (List.replicate 40 9) (by decide) (by decide)⟩

end XXHash

